import Mathlib

/-
Verification of the RAG indexing and retrieval core of the Job Copilot
application (the geminiService module): corpus chunking
(`generateRichCorpus`), the enrichment-and-embedding pipeline
(`enrichItem`, `enrichAndEmbedCorpus`), JD requirement extraction
(`extractRequirementsFromJD`), cosine similarity (`cosineSimilarity`),
and requirement-driven retrieval with context assembly (`getRagContext`).

Modelling conventions:
- JS numbers are idealised as real numbers `ℝ`; `cosineSimilarity` returns
  `Option ℝ`, where `none` marks the inputs on which the JS computation
  yields a non-finite float (NaN): reading past the end of the second
  vector, or dividing by a zero norm.  `cosineSimilarityVal` is the
  totalised value used inside the retrieval pipeline; it agrees with the
  JS result whenever that result is finite.
- Calls to the text-generation and embedding services are modelled by
  explicit oracle arguments describing the observable service behaviour
  (thrown error, missing response text, parsed payload).
- JS `Map` (insertion-ordered, `set` updates in place) is modelled by an
  association list, JS `Set` by an insertion-ordered duplicate-free list,
  and the stable Array.prototype.sort by `List.mergeSort`.
- `Math.random`-based id generation is modelled by an id oracle `ℕ → String`
  giving the fresh id used for the n-th chunk.
-/


/-! ## Data model (types.ts) -/

structure BulletPoint where
  raw_text : String
  deriving DecidableEq

structure WorkExperience where
  company_name : String
  role_title : String
  dates_employed : String
  location : String
  bullet_points : List BulletPoint
  deriving DecidableEq

structure Project where
  project_name : String
  role_title : String
  technologies_used : List String
  bullet_points : List BulletPoint
  deriving DecidableEq

structure Education where
  institution_name : String
  degree_obtained : String
  graduation_date : String
  achievements : List String
  deriving DecidableEq

structure SkillGroup where
  category_name : String
  items : List String
  deriving DecidableEq

structure ContactInfo where
  full_name : String
  email : String
  phone : String
  linkedin_url : String
  github_url : String
  website_url : String
  location : String
  deriving DecidableEq

structure ParsedResume where
  contact_info : ContactInfo
  professional_summary : String
  work_experience : List WorkExperience
  projects : List Project
  education : List Education
  skills : List SkillGroup
  certifications : List String
  deriving DecidableEq

/-- The free-form metadata record attached to a chunk.  The source stores a
JS object literal; the fields appearing across the five chunk categories are
collected here, absent fields being `none`. -/
structure ChunkMetadata where
  type : String
  company : Option String := none
  role : Option String := none
  id : Option String := none
  technologies : Option (List String) := none
  subtype : Option String := none
  category : Option String := none
  deriving DecidableEq

structure CorpusChunk where
  text : String
  metadata : ChunkMetadata
  deriving DecidableEq

/-- `EnrichedCorpusItem` of types.ts; `embedding` is the optional vector. -/
structure EnrichedCorpusItem where
  id : String
  content : String
  keywords : List String
  skills_implied : List String
  category : String
  raw_source : String
  metadata : ChunkMetadata
  embedding : Option (List ℝ) := none

/-! ## Chunker (`generateRichCorpus`) -/

def workExperienceChunks (r : ParsedResume) : List CorpusChunk :=
  r.work_experience.flatMap (fun job =>
    job.bullet_points.map (fun bullet =>
      { text := "ROLE: " ++ job.role_title ++ " | COMPANY: " ++ job.company_name
          ++ " | LOCATION: " ++ job.location ++ " | DATES: " ++ job.dates_employed
          ++ "\nACHIEVEMENT: " ++ bullet.raw_text
        metadata :=
          { type := "work_experience"
            company := some job.company_name
            role := some job.role_title
            id := some (job.company_name ++ "_" ++ job.role_title) } }))

def projectChunks (r : ParsedResume) : List CorpusChunk :=
  r.projects.flatMap (fun proj =>
    proj.bullet_points.map (fun bullet =>
      { text := "PROJECT: " ++ proj.project_name ++ " | ROLE: " ++ proj.role_title
          ++ " | TECH STACK: " ++ String.intercalate ", " proj.technologies_used
          ++ "\nDETAIL: " ++ bullet.raw_text
        metadata :=
          { type := "project"
            technologies := some proj.technologies_used } }))

def educationChunks (r : ParsedResume) : List CorpusChunk :=
  r.education.flatMap (fun edu =>
    let contextHeader := "category: EDUCATION | degree: " ++ edu.degree_obtained
      ++ " | institution: " ++ edu.institution_name ++ " | year: " ++ edu.graduation_date
    { text := contextHeader ++ "\nSUMMARY: Graduated with " ++ edu.degree_obtained ++ "."
      metadata := { type := "education", subtype := some "degree" } }
    :: edu.achievements.map (fun achievement =>
      { text := contextHeader ++ "\nACHIEVEMENT: " ++ achievement
        metadata := { type := "education", subtype := some "achievement" } }))

def skillChunks (r : ParsedResume) : List CorpusChunk :=
  r.skills.map (fun skillGroup =>
    let category := if skillGroup.category_name = "" then "General" else skillGroup.category_name
    { text := "category: SKILLS | group: " ++ category
        ++ "\nLIST: " ++ String.intercalate ", " skillGroup.items
      metadata := { type := "skill_group", category := some category } })

def certificationChunks (r : ParsedResume) : List CorpusChunk :=
  r.certifications.map (fun cert =>
    { text := "category: CERTIFICATION\nTITLE: " ++ cert
      metadata := { type := "certification" } })

def summaryChunks (r : ParsedResume) : List CorpusChunk :=
  if r.professional_summary ≠ "" then
    [{ text := "category: PROFESSIONAL SUMMARY\nTEXT: " ++ r.professional_summary
       metadata := { type := "summary" } }]
  else []

/-- `generateRichCorpus`: the corpus is pushed in source order —
work experience, projects, education, skills, certifications, summary. -/
def generateRichCorpus (r : ParsedResume) : List CorpusChunk :=
  workExperienceChunks r ++ projectChunks r ++ educationChunks r
    ++ skillChunks r ++ certificationChunks r ++ summaryChunks r

/-! ## Enricher (`enrichItem` and the enrichment phase of `enrichAndEmbedCorpus`)

The text-generation service call inside `enrichItem` is modelled by its
observable outcome: the call threw, the response carried no text, the
response text failed to parse as JSON (`JSON.parse` throws, caught by the
same handler as a thrown call), or it parsed into the four schema fields
(`keywords` / `skills_implied` may be absent, the source defends with
`|| []`). -/

inductive GenResult where
  | threw
  | noText
  | parseError
  | parsed (fused_sentence : String) (keywords : Option (List String))
      (skills_implied : Option (List String)) (category : String)
  deriving DecidableEq

/-- The degraded fallback item built in the catch handler of `enrichItem`. -/
def fallbackItem (item : CorpusChunk) (freshId : String) : EnrichedCorpusItem :=
  { id := freshId
    content := item.text
    keywords := []
    skills_implied := []
    category := "unknown"
    raw_source := item.text
    metadata := item.metadata }

/-- `enrichItem`: `none` models the JS `null` returned when the response has
no text; a thrown call and a JSON parse error both reach the catch handler
and produce the fallback item. -/
def enrichItem (item : CorpusChunk) (freshId : String) (svc : GenResult) :
    Option EnrichedCorpusItem :=
  match svc with
  | .threw => some (fallbackItem item freshId)
  | .parseError => some (fallbackItem item freshId)
  | .noText => none
  | .parsed fused keywords skills category =>
      some { id := freshId
             content := fused
             keywords := keywords.getD []
             skills_implied := skills.getD []
             category := category
             raw_source := item.text
             metadata := item.metadata }

/-- One ordered pass of the enrichment phase over consecutive chunks, the
`j`-th call using the `j`-th service outcome and fresh id.  `Promise.all`
returns the batch results in input order and `null` results are skipped by
the `if (res)` push, so this is a `filterMap`. -/
def enrichSeq (svc : ℕ → GenResult) (ids : ℕ → String) :
    List CorpusChunk → ℕ → List EnrichedCorpusItem
  | [], _ => []
  | c :: rest, j =>
      match enrichItem c (ids j) (svc j) with
      | some it => it :: enrichSeq svc ids rest (j + 1)
      | none => enrichSeq svc ids rest (j + 1)

/-- The enrichment phase of `enrichAndEmbedCorpus`: chunks are processed in
batches of `BATCH_SIZE = 5` (concurrent within a batch, sequential across
batches); each batch's results are appended in order. -/
def enrichPhase (corpus : List CorpusChunk) (svc : ℕ → GenResult)
    (ids : ℕ → String) : List EnrichedCorpusItem :=
  (List.range ((corpus.length + 4) / 5)).foldl
    (fun acc k => acc ++ enrichSeq svc ids ((corpus.drop (5 * k)).take 5) (5 * k))
    []

/-! ## Vectorizer (the embedding phase of `enrichAndEmbedCorpus`) -/

/-- Outcome of one `embedContent` call: the call threw (caught and logged),
or returned a list of embedding entries, each entry optionally carrying its
`values` vector.  A response whose `embeddings` field is absent behaves as
`ok []`. -/
inductive EmbedOutcome where
  | threw
  | ok (embeddings : List (Option (List ℝ)))

/-- The write-back loop `response.embeddings.forEach((emb, idx) => ...)` of
one batch: entry `idx` with present `values` is written into position
`pos + idx` of the item array.  A present entry aimed past the end of the
array corresponds to the JS `TypeError` on `undefined.embedding`, which
aborts the rest of this batch's loop (the surrounding catch swallows it). -/
def applyEmbeds (items : List EnrichedCorpusItem) (pos : ℕ) :
    List (Option (List ℝ)) → List EnrichedCorpusItem
  | [] => items
  | none :: rest => applyEmbeds items (pos + 1) rest
  | some v :: rest =>
      if h : pos < items.length then
        applyEmbeds (items.set pos { items[pos] with embedding := some v }) (pos + 1) rest
      else items

/-- The embedding phase of `enrichAndEmbedCorpus`: the texts are batched in
groups of `EMBED_BATCH_SIZE = 20`; batch `k` covers positions `20*k + idx`.
A thrown batch call is caught and changes nothing. -/
def embedPhase (items : List EnrichedCorpusItem) (svc : ℕ → EmbedOutcome) :
    List EnrichedCorpusItem :=
  (List.range ((items.length + 19) / 20)).foldl
    (fun cur k =>
      match svc k with
      | .threw => cur
      | .ok resp => applyEmbeds cur (20 * k) resp)
    items

/-- `enrichAndEmbedCorpus`: enrichment phase, then embedding phase, then
`filter(item => item.embedding !== undefined)`. -/
def enrichAndEmbedCorpus (corpus : List CorpusChunk) (genSvc : ℕ → GenResult)
    (ids : ℕ → String) (embSvc : ℕ → EmbedOutcome) : List EnrichedCorpusItem :=
  (embedPhase (enrichPhase corpus genSvc ids) embSvc).filter
    (fun item => item.embedding.isSome)

/-! ## Cosine similarity

`cosineSimilarity(vecA, vecB)` loops over the indices of `vecA`, reading
`vecB[i]` without a bounds check, and divides by the product of the two
square roots.  Over JS floats the result is NaN exactly when `vecB` is
shorter than `vecA` (an `undefined` read poisons the sums) or when the
denominator is zero (a zero norm forces a zero dot product, so `0 / 0`).
`cosineSimilarity` returns `none` on precisely those inputs;
`cosineSimilarityVal` is the totalised real value used by the retrieval
pipeline, which agrees with the JS float wherever that float is finite. -/

def dotProduct (a b : List ℝ) : ℝ := (List.zipWith (fun x y => x * y) a b).sum

def sumSq (a : List ℝ) : ℝ := (a.map (fun x => x * x)).sum

noncomputable def cosineSimilarityVal (a b : List ℝ) : ℝ :=
  dotProduct a b / (Real.sqrt (sumSq a) * Real.sqrt (sumSq (b.take a.length)))

noncomputable def cosineSimilarity (a b : List ℝ) : Option ℝ :=
  if b.length < a.length then none
  else if Real.sqrt (sumSq a) * Real.sqrt (sumSq (b.take a.length)) = 0 then none
  else some (cosineSimilarityVal a b)

/-! ## Requirement extraction (`extractRequirementsFromJD`)

The prompt asks the model for at most `requirementCount` requirement
strings, but the code performs no truncation of its own: the oracle
`svc = some l` stands for a response whose text parsed to the string list
`l`, which is returned as-is; `svc = none` covers a thrown call, a
response with no text, and a JSON parse failure, all of which return `[]`.
`jdText` and `requirementCount` shape only the prompt. -/

def extractRequirementsFromJD (jdText : String) (requirementCount : ℕ)
    (svc : Option (List String)) : List String :=
  match jdText, requirementCount, svc with
  | _, _, none => []
  | _, _, some l => l

/-! ## Retriever (`getRagContext`) -/

structure RagOptions where
  includeSummary : Bool := true
  includeEducation : Bool := true
  requirementCount : ℕ := 6
  reqMatchCount : ℕ := 6
  finalContextLimit : ℕ := 15

/-- JS `Set.add`: append the element unless already present. -/
def setAdd (s : List String) (x : String) : List String :=
  if x ∈ s then s else s ++ [x]

/-- JS `Map.get(k) || 0` over an insertion-ordered association list. -/
def mapGetD (m : List (String × ℝ)) (k : String) (d : ℝ) : ℝ :=
  match m with
  | [] => d
  | (k', v) :: rest => if k' = k then v else mapGetD rest k d

/-- JS `Map.set`: overwrite in place, or append a new key. -/
def mapSet (m : List (String × ℝ)) (k : String) (v : ℝ) : List (String × ℝ) :=
  match m with
  | [] => [(k, v)]
  | (k', v') :: rest => if k' = k then (k', v) :: rest else (k', v') :: mapSet rest k v

/-- Step 1 of `getRagContext`: the fixed-inclusion id set — ids of items
typed `summary` (when `includeSummary`) and `education` (when
`includeEducation`), collected into the insertion-ordered set `finalIds`. -/
def fixedIds (vectorStore : List EnrichedCorpusItem) (opts : RagOptions) : List String :=
  let s1 :=
    if opts.includeSummary then
      (vectorStore.filter (fun d => d.metadata.type == "summary")).foldl
        (fun s d => setAdd s d.id) []
    else []
  if opts.includeEducation then
    (vectorStore.filter (fun d => d.metadata.type == "education")).foldl
      (fun s d => setAdd s d.id) s1
  else s1

/-- The requirements actually used: the extraction result, or the first
1000 characters of the raw JD as a single synthetic requirement. -/
def requirementsUsed (jdText : String) (requirementCount : ℕ)
    (reqSvc : Option (List String)) : List String :=
  let requirements := extractRequirementsFromJD jdText requirementCount reqSvc
  if requirements = [] then [jdText.take 1000] else requirements

/-- The requirement vectors: a thrown embedding call yields none, a
successful call yields one vector per entry, `e.values || []` turning a
missing `values` field into the empty vector. -/
def reqEmbeddingsOf (embSvc : Option (List (Option (List ℝ)))) : List (List ℝ) :=
  match embSvc with
  | none => []
  | some l => l.map (fun e => e.getD [])

/-- The per-item score for one requirement vector: cosine similarity, or
the sentinel `-1` for an item without an embedding. -/
noncomputable def itemScore (reqVec : List ℝ) (item : EnrichedCorpusItem) : ℝ :=
  match item.embedding with
  | some emb => cosineSimilarityVal reqVec emb
  | none => -1

/-- The `{id, score}` list built for one requirement vector. -/
noncomputable def scoresFor (vectorStore : List EnrichedCorpusItem) (reqVec : List ℝ) :
    List (String × ℝ) :=
  vectorStore.map (fun item => (item.id, itemScore reqVec item))

/-- The comparator `(a, b) => b.score - a.score` sorts by score descending;
Array.prototype.sort is stable, modelled by the stable `List.mergeSort`. -/
noncomputable def sortByScoreDesc (l : List (String × ℝ)) : List (String × ℝ) :=
  l.mergeSort (fun a b => decide (b.2 ≤ a.2))

/-- The top `reqMatchCount` hits for one requirement vector. -/
noncomputable def topHits (vectorStore : List EnrichedCorpusItem) (reqMatchCount : ℕ)
    (reqVec : List ℝ) : List (String × ℝ) :=
  (sortByScoreDesc (scoresFor vectorStore reqVec)).take reqMatchCount

/-- Accumulate one requirement's hits into the running per-id score map:
`chunkScores.set(hit.id, (chunkScores.get(hit.id) || 0) + hit.score)`. -/
noncomputable def accumHits (m : List (String × ℝ)) (hits : List (String × ℝ)) :
    List (String × ℝ) :=
  hits.foldl (fun m h => mapSet m h.1 (mapGetD m h.1 0 + h.2)) m

/-- The aggregated per-id score map over all requirement vectors. -/
noncomputable def chunkScoresOf (vectorStore : List EnrichedCorpusItem)
    (reqMatchCount : ℕ) (reqVecs : List (List ℝ)) : List (String × ℝ) :=
  reqVecs.foldl (fun m reqVec => accumHits m (topHits vectorStore reqMatchCount reqVec)) []

/-- `sortedIds`: the aggregated entries sorted by score descending, keys only. -/
noncomputable def sortedIdsOf (vectorStore : List EnrichedCorpusItem)
    (reqMatchCount : ℕ) (reqVecs : List (List ℝ)) : List String :=
  (sortByScoreDesc (chunkScoresOf vectorStore reqMatchCount reqVecs)).map Prod.fst

/-- The selection loop: walk `sortedIds`, breaking as soon as the set has
`finalContextLimit + initialFixedCount` members. -/
def selectIds (finalIds : List String) (limit : ℕ) : List String → List String
  | [] => finalIds
  | uid :: rest =>
      if finalIds.length ≥ limit then finalIds
      else selectIds (setAdd finalIds uid) limit rest

/-- The final id set of `getRagContext`. -/
noncomputable def finalIdsOf (jdText : String) (vectorStore : List EnrichedCorpusItem)
    (opts : RagOptions) (reqSvc : Option (List String))
    (embSvc : Option (List (Option (List ℝ)))) : List String :=
  let fixed := fixedIds vectorStore opts
  let reqVecs := reqEmbeddingsOf embSvc
  selectIds fixed (opts.finalContextLimit + fixed.length)
    (sortedIdsOf vectorStore opts.reqMatchCount reqVecs)

/-- The items rendered into the context, in vector-store order. -/
noncomputable def selectedItems (jdText : String) (vectorStore : List EnrichedCorpusItem)
    (opts : RagOptions) (reqSvc : Option (List String))
    (embSvc : Option (List (Option (List ℝ)))) : List EnrichedCorpusItem :=
  vectorStore.filter (fun d => decide (d.id ∈ finalIdsOf jdText vectorStore opts reqSvc embSvc))

/-- One rendered context block:
`[<CATEGORY UPPERCASE>] <content>\n(Tags: <up to 8 keywords+skills>)`. -/
def renderBlock (doc : EnrichedCorpusItem) : String :=
  let category := (if doc.category = "" then "General" else doc.category).toUpper
  let metaTags := String.intercalate ", " ((doc.keywords ++ doc.skills_implied).take 8)
  "[" ++ category ++ "] " ++ doc.content ++ "\n(Tags: " ++ metaTags ++ ")"

noncomputable def ragContextBlocks (jdText : String) (vectorStore : List EnrichedCorpusItem)
    (opts : RagOptions) (reqSvc : Option (List String))
    (embSvc : Option (List (Option (List ℝ)))) : List String :=
  (selectedItems jdText vectorStore opts reqSvc embSvc).map renderBlock

/-- `getRagContext`: the rendered blocks joined by a blank line.  Note that
`requirementsUsed` (and through it the fallback of C8) feeds the embedding
call that produced `embSvc`; the oracle stands for that call's response. -/
noncomputable def getRagContext (jdText : String) (vectorStore : List EnrichedCorpusItem)
    (opts : RagOptions) (reqSvc : Option (List String))
    (embSvc : Option (List (Option (List ℝ)))) : String :=
  String.intercalate "\n\n" (ragContextBlocks jdText vectorStore opts reqSvc embSvc)

/-! ## Demonstration inputs used by counterexamples and witnesses -/

def demoMeta : ChunkMetadata := { type := "work_experience" }

def demoChunk : CorpusChunk :=
  { text := "ROLE: Dev | COMPANY: Acme\nACHIEVEMENT: Fixed bugs", metadata := demoMeta }

/-- A store item that carries no embedding. -/
def demoItemNoEmb : EnrichedCorpusItem :=
  { id := "a"
    content := "hello"
    keywords := []
    skills_implied := []
    category := "unknown"
    raw_source := "raw"
    metadata := demoMeta
    embedding := none }

/-- A store item with the one-dimensional embedding `[1]`. -/
noncomputable def demoItemEmb : EnrichedCorpusItem :=
  { demoItemNoEmb with id := "b", embedding := some [1] }

/-! ## Retriever helper definitions -/

/-- The fixed-inclusion predicate of step 1 of `getRagContext`. -/
def isFixedItem (opts : RagOptions) (d : EnrichedCorpusItem) : Bool :=
  (opts.includeSummary && d.metadata.type == "summary")
    || (opts.includeEducation && d.metadata.type == "education")

/-- Replace the embedding field. -/
def withEmb (d : EnrichedCorpusItem) (e : Option (List ℝ)) : EnrichedCorpusItem :=
  { d with embedding := e }

/-- The vector the embedding phase leaves at position `p`: batch `p / 20`,
batch-relative position `p % 20`; `none` when that batch threw or returned
no vector at that position. -/
noncomputable def batchVec (svc : ℕ → EmbedOutcome) (p : ℕ) : Option (List ℝ) :=
  match svc (p / 20) with
  | .threw => none
  | .ok resp => (resp.getD (p % 20) none)

/-- Default item used with `List.getD` in element-wise statements. -/
def dummyItem : EnrichedCorpusItem :=
  { id := ""
    content := ""
    keywords := []
    skills_implied := []
    category := ""
    raw_source := ""
    metadata := { type := "" }
    embedding := none }

/-- JS `if (emb.values) { item.embedding = emb.values }`: a present vector
overwrites, an absent one leaves the old value untouched. -/
def jsOverwrite (old new : Option (List ℝ)) : Option (List ℝ) :=
  match new with
  | some v => some v
  | none => old

/-! ## Theorems -/

/-- Claim C6: the Chunker yields exactly one chunk per work-experience bullet,
one per project bullet, one degree chunk plus one per achievement for each
education entry, one per skill group, one per certification, and one summary
chunk exactly when the professional summary is non-empty; empty collections
contribute zero chunks (the function is total, so no input is an error). -/
theorem generateRichCorpus_chunk_counts (r : ParsedResume) :
    (workExperienceChunks r).length
        = (r.work_experience.map (fun j => j.bullet_points.length)).sum
    ∧ (projectChunks r).length = (r.projects.map (fun p => p.bullet_points.length)).sum
    ∧ (educationChunks r).length = (r.education.map (fun e => 1 + e.achievements.length)).sum
    ∧ (skillChunks r).length = r.skills.length
    ∧ (certificationChunks r).length = r.certifications.length
    ∧ (summaryChunks r).length = (if r.professional_summary ≠ "" then 1 else 0)
    ∧ (generateRichCorpus r).length =
        (r.work_experience.map (fun j => j.bullet_points.length)).sum
        + (r.projects.map (fun p => p.bullet_points.length)).sum
        + (r.education.map (fun e => 1 + e.achievements.length)).sum
        + r.skills.length + r.certifications.length
        + (if r.professional_summary ≠ "" then 1 else 0) := by
  have hw : (workExperienceChunks r).length
      = (r.work_experience.map (fun j => j.bullet_points.length)).sum := by
    simp [workExperienceChunks, List.length_flatMap, Function.comp_def]
  have hp : (projectChunks r).length
      = (r.projects.map (fun p => p.bullet_points.length)).sum := by
    simp [projectChunks, List.length_flatMap, Function.comp_def]
  have he : (educationChunks r).length
      = (r.education.map (fun e => 1 + e.achievements.length)).sum := by
    simp [educationChunks, List.length_flatMap, Function.comp_def, Nat.add_comm]
  have hs : (skillChunks r).length = r.skills.length := by simp [skillChunks]
  have hc : (certificationChunks r).length = r.certifications.length := by
    simp [certificationChunks]
  have hsum : (summaryChunks r).length = (if r.professional_summary ≠ "" then 1 else 0) := by
    by_cases h : r.professional_summary = "" <;> simp [summaryChunks, h]
  refine ⟨hw, hp, he, hs, hc, hsum, ?_⟩
  simp only [generateRichCorpus, List.length_append, hw, hp, he, hs, hc, hsum]

/-! ## Enrichment-phase lemmas -/

theorem enrichSeq_append (svc : ℕ → GenResult) (ids : ℕ → String) :
    ∀ (l₁ l₂ : List CorpusChunk) (j : ℕ),
      enrichSeq svc ids (l₁ ++ l₂) j
        = enrichSeq svc ids l₁ j ++ enrichSeq svc ids l₂ (j + l₁.length) := by
  intro l₁
  induction l₁ with
  | nil => intro l₂ j; simp [enrichSeq]
  | cons c rest ih =>
      intro l₂ j
      have harith : j + 1 + rest.length = j + (rest.length + 1) := by omega
      rcases h : enrichItem c (ids j) (svc j) with _ | it
      · simp only [List.cons_append, enrichSeq, h, List.length_cons, List.append_eq]
        rw [ih, harith]
      · simp only [List.cons_append, enrichSeq, h, List.length_cons, List.append_eq]
        rw [ih, harith]

theorem foldl_append_accum {β γ : Type} (f : γ → List β) :
    ∀ (ks : List γ) (init : List β),
      ks.foldl (fun acc k => acc ++ f k) init = init ++ ks.foldl (fun acc k => acc ++ f k) [] := by
  intro ks
  induction ks with
  | nil => intro init; simp
  | cons k rest ih =>
      intro init
      simp only [List.foldl_cons]
      rw [ih (init ++ f k), ih ([] ++ f k)]
      simp

theorem enrichPhase_batches (svc : ℕ → GenResult) (ids : ℕ → String) :
    ∀ (n : ℕ) (l : List CorpusChunk), l.length = n → ∀ (j : ℕ),
      (List.range ((l.length + 4) / 5)).foldl
        (fun acc k => acc ++ enrichSeq svc ids ((l.drop (5 * k)).take 5) (j + 5 * k)) []
      = enrichSeq svc ids l j := by
  intro n
  induction n using Nat.strong_induction_on with
  | _ n ih =>
    intro l hn j
    rcases Nat.eq_zero_or_pos l.length with hzero | hpos
    · have hnil : l = [] := List.length_eq_zero.mp hzero
      subst hnil
      simp [enrichSeq]
    · have hsplit : (l.length + 4) / 5 = 1 + (l.length - 5 + 4) / 5 := by omega
      have hdroplen : (l.drop 5).length = l.length - 5 := by simp
      rw [hsplit, Nat.add_comm 1, List.range_succ_eq_map]
      simp only [List.foldl_cons, List.foldl_map]
      rw [foldl_append_accum]
      have hrw : ∀ k : ℕ,
          enrichSeq svc ids ((l.drop (5 * Nat.succ k)).take 5) (j + 5 * Nat.succ k)
            = enrichSeq svc ids (((l.drop 5).drop (5 * k)).take 5) ((j + 5) + 5 * k) := by
        intro k
        have h1 : (l.drop 5).drop (5 * k) = l.drop (5 * Nat.succ k) := by
          rw [List.drop_drop]
          congr 1
          omega
        have h2 : j + 5 * Nat.succ k = j + 5 + 5 * k := by omega
        rw [h1, h2]
      simp only [hrw]
      have hih := ih (l.drop 5).length (by rw [List.length_drop]; omega) (l.drop 5) rfl (j + 5)
      rw [hdroplen] at hih
      rw [hih]
      by_cases hge : 5 ≤ l.length
      · have htke : (l.take 5).length = 5 := by simp; omega
        calc [] ++ enrichSeq svc ids ((l.drop 0).take 5) (j + 5 * 0)
              ++ enrichSeq svc ids (l.drop 5) (j + 5)
            = enrichSeq svc ids (l.take 5) j ++ enrichSeq svc ids (l.drop 5) (j + 5) := by
              simp
          _ = enrichSeq svc ids (l.take 5 ++ l.drop 5) j := by
              rw [enrichSeq_append, htke]
          _ = enrichSeq svc ids l j := by rw [List.take_append_drop]
      · have hdrop : l.drop 5 = [] := by
          apply List.drop_eq_nil_of_le; omega
        have htk : l.take 5 = l := by
          apply List.take_of_length_le; omega
        simp [hdrop, htk, enrichSeq]

/-- The enrichment phase equals one ordered pass over the corpus. -/
theorem enrichPhase_eq_enrichSeq (corpus : List CorpusChunk) (svc : ℕ → GenResult)
    (ids : ℕ → String) : enrichPhase corpus svc ids = enrichSeq svc ids corpus 0 := by
  have h := enrichPhase_batches svc ids corpus.length corpus rfl 0
  simp only [Nat.zero_add] at h
  rw [← h, enrichPhase]

theorem enrichSeq_length_le (svc : ℕ → GenResult) (ids : ℕ → String) :
    ∀ (l : List CorpusChunk) (j : ℕ), (enrichSeq svc ids l j).length ≤ l.length := by
  intro l
  induction l with
  | nil => intro j; simp [enrichSeq]
  | cons c rest ih =>
      intro j
      simp only [enrichSeq]
      cases enrichItem c (ids j) (svc j) with
      | none => exact le_trans (ih (j + 1)) (by simp)
      | some it => simpa using ih (j + 1)

theorem enrichSeq_length_eq (svc : ℕ → GenResult) (ids : ℕ → String) :
    ∀ (l : List CorpusChunk) (j : ℕ), (∀ i, i < l.length → svc (j + i) ≠ .noText) →
      (enrichSeq svc ids l j).length = l.length := by
  intro l
  induction l with
  | nil => intro j _; simp [enrichSeq]
  | cons c rest ih =>
      intro j h
      have hj : svc j ≠ .noText := by
        have := h 0 (by simp)
        simpa using this
      have hrest : ∀ i, i < rest.length → svc (j + 1 + i) ≠ .noText := by
        intro i hi
        have := h (i + 1) (by simpa using Nat.succ_lt_succ hi)
        simpa [Nat.add_comm, Nat.add_assoc, Nat.add_left_comm] using this
      simp only [enrichSeq]
      rcases hsvc : svc j with _ | _ | _ | ⟨f, kw, sk, cat⟩
      · simp [enrichItem, ih (j + 1) hrest]
      · exact absurd hsvc hj
      · simp [enrichItem, ih (j + 1) hrest]
      · simp [enrichItem, ih (j + 1) hrest]

/-- Claim C3, amended: every chunk yields at most one enriched item, and when
no chunk's service response comes back with a missing text body the
enrichment phase yields exactly one item per chunk; a missing-text response
makes `enrichItem` return `null`, which the `if (res)` push silently drops
(see the counterexample). -/
theorem enrichPhase_at_most_one_item_per_chunk (corpus : List CorpusChunk)
    (svc : ℕ → GenResult) (ids : ℕ → String) :
    (enrichPhase corpus svc ids).length ≤ corpus.length
    ∧ ((∀ i, i < corpus.length → svc i ≠ .noText) →
        (enrichPhase corpus svc ids).length = corpus.length) := by
  rw [enrichPhase_eq_enrichSeq]
  exact ⟨enrichSeq_length_le svc ids corpus 0,
    fun h => enrichSeq_length_eq svc ids corpus 0 (by simpa using h)⟩

/-- Witness for the amended C3 at a concrete input. -/
theorem enrichPhase_at_most_one_item_per_chunk_witness :
    (∀ i, i < [demoChunk].length → (fun _ => GenResult.threw) i ≠ .noText) ∧
    (enrichPhase [demoChunk] (fun _ => .threw) (fun _ => "i1")).length = [demoChunk].length :=
  ⟨by intro i _; simp,
    (enrichPhase_at_most_one_item_per_chunk [demoChunk] _ _).2 (by intro i _; simp)⟩

/-- Claim C3 counterexample: a single chunk whose generation call succeeds
with an empty response body is dropped — the enriched list is empty, not of
length one; `len(Enricher(C)) = len(C)` fails. -/
theorem enrichPhase_drops_chunk_counterexample :
    (enrichPhase [demoChunk] (fun _ => .noText) (fun _ => "i1")).length = 0 ∧
    ¬ ((enrichPhase [demoChunk] (fun _ => .noText) (fun _ => "i1")).length
        = [demoChunk].length) := by
  constructor
  · decide
  · decide

/-- Claim C7, amended: a thrown generation call and a JSON parse error both
produce the degraded fallback item — content equal to the raw chunk text,
empty keyword and implied-skill lists, category "unknown" — and `enrichItem`
is total, so no exception escapes; but a response with a missing text body
yields `null` rather than a fallback (see the counterexample). -/
theorem enrichItem_failure_fallback (item : CorpusChunk) (freshId : String) :
    enrichItem item freshId .threw = some (fallbackItem item freshId)
    ∧ enrichItem item freshId .parseError = some (fallbackItem item freshId)
    ∧ (fallbackItem item freshId).content = item.text
    ∧ (fallbackItem item freshId).keywords = []
    ∧ (fallbackItem item freshId).skills_implied = []
    ∧ (fallbackItem item freshId).category = "unknown" :=
  ⟨rfl, rfl, rfl, rfl, rfl, rfl⟩

/-- Claim C7 counterexample: on a response with no text body, `enrichItem`
returns `null` (`none`), not a fallback item. -/
theorem enrichItem_noText_counterexample :
    enrichItem demoChunk "i1" .noText = none ∧
    ∀ fb : EnrichedCorpusItem, enrichItem demoChunk "i1" .noText ≠ some fb := by
  exact ⟨rfl, fun fb h => Option.noConfusion h⟩

/-! ## Requirement-extraction claims -/

/-- Claim C8: whenever requirement extraction returns zero requirements
(thrown call, missing text, parse failure, or a parsed empty list),
`getRagContext` substitutes the first 1000 characters of the raw JD as a
single synthetic requirement, so retrieval always runs with at least one
query string. -/
theorem requirementsUsed_fallback (jdText : String) (n : ℕ) (reqSvc : Option (List String)) :
    (extractRequirementsFromJD jdText n reqSvc = [] →
      requirementsUsed jdText n reqSvc = [jdText.take 1000]) ∧
    requirementsUsed jdText n reqSvc ≠ [] := by
  constructor
  · intro h
    simp [requirementsUsed, h]
  · by_cases h : extractRequirementsFromJD jdText n reqSvc = []
    · simp [requirementsUsed, h]
    · simp [requirementsUsed, h]

/-- Witness for C8 at a concrete input: a thrown extraction call on the JD
"jd" falls back to the single requirement "jd". -/
theorem requirementsUsed_fallback_witness :
    (extractRequirementsFromJD "jd" 6 none = []) ∧
    requirementsUsed "jd" 6 none = ["jd".take 1000] ∧
    requirementsUsed "jd" 6 none ≠ [] :=
  ⟨by decide, (requirementsUsed_fallback "jd" 6 none).1 (by decide),
    (requirementsUsed_fallback "jd" 6 none).2⟩

/-- Claim C9 counterexample: the extractor performs no truncation — with a
target count of 1, a service response parsing to two strings is returned
whole, so the result is not bounded by `requirementCount`. -/
theorem extractRequirements_not_bounded_counterexample :
    extractRequirementsFromJD "jd" 1 (some ["a", "b"]) = ["a", "b"] ∧
    ¬ ((extractRequirementsFromJD "jd" 1 (some ["a", "b"])).length ≤ 1) := by
  exact ⟨rfl, by decide⟩

/-- Claim C9, amended: the extractor returns exactly the list parsed from
the service response (and `[]` on any failure); the target count only
shapes the prompt, so the result is bounded by `requirementCount` exactly
when the service's own list is. -/
theorem extractRequirements_passthrough (jdText : String) (n : ℕ)
    (svc : Option (List String)) :
    extractRequirementsFromJD jdText n none = [] ∧
    (∀ l, svc = some l → extractRequirementsFromJD jdText n svc = l) ∧
    (∀ l, svc = some l → l.length ≤ n → (extractRequirementsFromJD jdText n svc).length ≤ n) := by
  refine ⟨rfl, ?_, ?_⟩
  · intro l h
    subst h
    rfl
  · intro l h hl
    subst h
    exact hl

/-- Witness for the amended C9 at a concrete input. -/
theorem extractRequirements_passthrough_witness :
    extractRequirementsFromJD "x" 2 none = [] ∧
    extractRequirementsFromJD "x" 2 (some ["a"]) = ["a"] ∧
    (["a"].length ≤ 2 ∧ (extractRequirementsFromJD "x" 2 (some ["a"])).length ≤ 2) :=
  ⟨(extractRequirements_passthrough "x" 2 (some ["a"])).1,
    (extractRequirements_passthrough "x" 2 (some ["a"])).2.1 ["a"] rfl,
    by decide,
    (extractRequirements_passthrough "x" 2 (some ["a"])).2.2 ["a"] rfl (by decide)⟩

/-! ## Cosine-similarity range (C10) -/

theorem sumSq_nonneg (a : List ℝ) : 0 ≤ sumSq a := by
  induction a with
  | nil => simp [sumSq]
  | cons x t ih =>
      have hx : 0 ≤ x * x := mul_self_nonneg x
      simp only [sumSq, List.map_cons, List.sum_cons]
      have : (0:ℝ) ≤ (t.map (fun x => x * x)).sum := ih
      linarith

/-- Cauchy–Schwarz for the truncating loop of `cosineSimilarity`. -/
theorem dotProduct_sq_le (a : List ℝ) : ∀ b : List ℝ,
    (dotProduct a b) ^ 2 ≤ sumSq a * sumSq (b.take a.length) := by
  induction a with
  | nil =>
      intro b
      simp [dotProduct, sumSq]
  | cons x ta ih =>
      intro b
      match b with
      | [] =>
          simp [dotProduct, sumSq]
      | y :: tb =>
          have hA : 0 ≤ sumSq ta := sumSq_nonneg ta
          have hB : 0 ≤ sumSq (tb.take ta.length) := sumSq_nonneg _
          have hd := ih tb
          have step : (x * y + dotProduct ta tb) ^ 2
              ≤ (x * x + sumSq ta) * (y * y + sumSq (tb.take ta.length)) := by
            rcases eq_or_lt_of_le hB with hB0 | hB0
            · have hd0 : dotProduct ta tb = 0 := by nlinarith [sq_nonneg (dotProduct ta tb)]
              rw [hd0]
              nlinarith [mul_nonneg hA (mul_self_nonneg y), mul_self_nonneg (x * y)]
            · nlinarith [sq_nonneg (x * sumSq (tb.take ta.length) - y * dotProduct ta tb),
                mul_nonneg (mul_self_nonneg y) (sub_nonneg.mpr hd),
                mul_nonneg hB (sub_nonneg.mpr hd), mul_pos hB0 hB0]
          simpa [dotProduct, sumSq] using step

/-- Claim C10 counterexample: scoring against a zero-vector embedding does
not produce a real number in `[-1, 1]` — the JS computation divides zero by
zero and yields NaN, modelled by `none`. -/
theorem cosineSimilarity_zero_vector_counterexample :
    cosineSimilarity [(0:ℝ)] [(0:ℝ)] = none ∧
    ¬ ∃ x : ℝ, cosineSimilarity [(0:ℝ)] [(0:ℝ)] = some x ∧ -1 ≤ x ∧ x ≤ 1 := by
  have h : cosineSimilarity [(0:ℝ)] [(0:ℝ)] = none := by
    simp [cosineSimilarity, sumSq]
  refine ⟨h, ?_⟩
  rintro ⟨x, hx, -⟩
  rw [h] at hx
  exact Option.noConfusion hx

/-- Claim C10, amended: whenever the JS computation is finite — the second
vector is at least as long as the first and neither truncated norm is zero —
the score is a real number in `[-1, 1]`; a zero-norm embedding or a
requirement vector longer than the item vector instead yields NaN (`none`),
as the counterexample shows. -/
theorem cosineSimilarity_mem_Icc (a b : List ℝ) (hlen : a.length ≤ b.length)
    (ha : sumSq a ≠ 0) (hb : sumSq (b.take a.length) ≠ 0) :
    ∃ x : ℝ, cosineSimilarity a b = some x ∧ -1 ≤ x ∧ x ≤ 1 := by
  have hA : 0 < sumSq a := lt_of_le_of_ne (sumSq_nonneg a) (Ne.symm ha)
  have hB : 0 < sumSq (b.take a.length) := lt_of_le_of_ne (sumSq_nonneg _) (Ne.symm hb)
  have hsA : 0 < Real.sqrt (sumSq a) := Real.sqrt_pos.mpr hA
  have hsB : 0 < Real.sqrt (sumSq (b.take a.length)) := Real.sqrt_pos.mpr hB
  have hD : 0 < Real.sqrt (sumSq a) * Real.sqrt (sumSq (b.take a.length)) :=
    mul_pos hsA hsB
  have habs : |dotProduct a b| ≤ Real.sqrt (sumSq a) * Real.sqrt (sumSq (b.take a.length)) := by
    have h1 : |dotProduct a b| = Real.sqrt ((dotProduct a b) ^ 2) :=
      (Real.sqrt_sq_eq_abs (dotProduct a b)).symm
    rw [h1]
    have h2 : Real.sqrt ((dotProduct a b) ^ 2)
        ≤ Real.sqrt (sumSq a * sumSq (b.take a.length)) :=
      Real.sqrt_le_sqrt (dotProduct_sq_le a b)
    calc Real.sqrt ((dotProduct a b) ^ 2)
        ≤ Real.sqrt (sumSq a * sumSq (b.take a.length)) := h2
      _ = Real.sqrt (sumSq a) * Real.sqrt (sumSq (b.take a.length)) :=
          Real.sqrt_mul (sumSq_nonneg a) _
  refine ⟨cosineSimilarityVal a b, ?_, ?_, ?_⟩
  · rw [cosineSimilarity, if_neg (not_lt.mpr hlen), if_neg (ne_of_gt hD)]
  · rw [cosineSimilarityVal, neg_le, ← neg_div]
    apply div_le_one_of_le₀ _ hD.le
    have := abs_le.mp habs
    linarith
  · rw [cosineSimilarityVal]
    apply div_le_one_of_le₀ _ hD.le
    have := abs_le.mp habs
    linarith

/-- Witness for the amended C10: the similarity of `[1]` with itself is a
real number in `[-1, 1]`. -/
theorem cosineSimilarity_mem_Icc_witness :
    [(1:ℝ)].length ≤ [(1:ℝ)].length ∧ sumSq [(1:ℝ)] ≠ 0 ∧
    sumSq ([(1:ℝ)].take [(1:ℝ)].length) ≠ 0 ∧
    ∃ x : ℝ, cosineSimilarity [(1:ℝ)] [(1:ℝ)] = some x ∧ -1 ≤ x ∧ x ≤ 1 := by
  have h1 : sumSq [(1:ℝ)] ≠ 0 := by norm_num [sumSq]
  exact ⟨le_refl _, h1, by simpa using h1,
    cosineSimilarity_mem_Icc [(1:ℝ)] [(1:ℝ)] (le_refl _) h1 (by simpa using h1)⟩

/-! ## Set / map lemmas -/

theorem setAdd_nodup (s : List String) (x : String) (h : s.Nodup) : (setAdd s x).Nodup := by
  by_cases hx : x ∈ s
  · simpa [setAdd, hx] using h
  · simp only [setAdd, hx, if_false]
    exact List.Nodup.append h (List.nodup_singleton x) (by simpa using hx)

theorem setAdd_length_le (s : List String) (x : String) :
    (setAdd s x).length ≤ s.length + 1 := by
  by_cases hx : x ∈ s <;> simp [setAdd, hx]

theorem mem_setAdd (s : List String) (x y : String) :
    y ∈ setAdd s x ↔ y ∈ s ∨ y = x := by
  by_cases hx : x ∈ s
  · simp only [setAdd, hx, if_true]
    constructor
    · exact fun h => Or.inl h
    · rintro (h | rfl)
      · exact h
      · exact hx
  · simp [setAdd, hx]

theorem selectIds_length_le (limit : ℕ) :
    ∀ (l : List String) (s : List String), s.length ≤ limit →
      (selectIds s limit l).length ≤ limit := by
  intro l
  induction l with
  | nil => intro s hs; simpa [selectIds] using hs
  | cons uid rest ih =>
      intro s hs
      by_cases hge : s.length ≥ limit
      · simpa [selectIds, hge] using hs
      · have h1 : (setAdd s uid).length ≤ limit := by
          have := setAdd_length_le s uid
          omega
        simpa [selectIds, hge] using ih (setAdd s uid) h1

theorem selectIds_of_le (limit : ℕ) (s : List String) (l : List String)
    (h : limit ≤ s.length) : selectIds s limit l = s := by
  cases l with
  | nil => rfl
  | cons uid rest => simp [selectIds, h]

theorem selectIds_nodup (limit : ℕ) :
    ∀ (l : List String) (s : List String), s.Nodup → (selectIds s limit l).Nodup := by
  intro l
  induction l with
  | nil => intro s hs; simpa [selectIds] using hs
  | cons uid rest ih =>
      intro s hs
      by_cases hge : s.length ≥ limit
      · simpa [selectIds, hge] using hs
      · simpa [selectIds, hge] using ih (setAdd s uid) (setAdd_nodup s uid hs)

theorem mem_selectIds (limit : ℕ) :
    ∀ (l : List String) (s : List String) (i : String),
      i ∈ selectIds s limit l → i ∈ s ∨ i ∈ l := by
  intro l
  induction l with
  | nil => intro s i h; exact Or.inl (by simpa [selectIds] using h)
  | cons uid rest ih =>
      intro s i h
      by_cases hge : s.length ≥ limit
      · simp only [selectIds, hge, if_pos] at h
        exact Or.inl h
      · simp only [selectIds, hge, if_neg, not_false_iff] at h
        rcases ih (setAdd s uid) i h with hmem | hmem
        · rcases (mem_setAdd s uid i).mp hmem with h1 | rfl
          · exact Or.inl h1
          · exact Or.inr (by simp)
        · exact Or.inr (by simp [hmem])

/-- A duplicate-free list contained in `S` is no longer than `S`. -/
theorem nodup_subset_length_le {l S : List String} (hl : l.Nodup) (hsub : l ⊆ S) :
    l.length ≤ S.length := by
  calc l.length = l.toFinset.card := (List.toFinset_card_of_nodup hl).symm
    _ ≤ S.toFinset.card := Finset.card_le_card (fun x hx => by
        rw [List.mem_toFinset] at hx ⊢
        exact hsub hx)
    _ ≤ S.length := S.toFinset_card_le

/-! ## Fixed-inclusion lemmas -/

theorem foldl_setAdd_eq_append :
    ∀ (l : List EnrichedCorpusItem) (init : List String),
      (∀ d ∈ l, d.id ∉ init) → ((l.map (fun d => d.id)).Nodup) →
      l.foldl (fun s d => setAdd s d.id) init = init ++ l.map (fun d => d.id) := by
  intro l
  induction l with
  | nil => intro init _ _; simp
  | cons d rest ih =>
      intro init hnotin hnd
      have hdid : d.id ∉ init := hnotin d (by simp)
      have hstep : setAdd init d.id = init ++ [d.id] := by simp [setAdd, hdid]
      simp only [List.foldl_cons, hstep]
      have hnd' : ((rest.map (fun d => d.id)).Nodup) := (List.nodup_cons.mp (by simpa using hnd)).2
      have hnotin' : ∀ e ∈ rest, e.id ∉ init ++ [d.id] := by
        intro e he
        simp only [List.mem_append, List.mem_singleton]
        rintro (h1 | h2)
        · exact hnotin e (by simp [he]) h1
        · have : d.id ∉ rest.map (fun d => d.id) := (List.nodup_cons.mp (by simpa using hnd)).1
          exact this (h2 ▸ List.mem_map_of_mem (fun d => d.id) he)
      rw [ih (init ++ [d.id]) hnotin' hnd']
      simp

theorem length_filter_or_disj (p q : EnrichedCorpusItem → Bool) :
    ∀ l : List EnrichedCorpusItem, (∀ a ∈ l, ¬(p a = true ∧ q a = true)) →
      (l.filter (fun a => p a || q a)).length = (l.filter p).length + (l.filter q).length := by
  intro l
  induction l with
  | nil => intro _; simp
  | cons a rest ih =>
      intro h
      have hrest := ih (fun b hb => h b (by simp [hb]))
      have ha := h a (by simp)
      by_cases hp : p a = true
      · have hq : q a = false := by
          by_cases h1 : q a = true
          · exact absurd ⟨hp, h1⟩ ha
          · exact Bool.eq_false_iff.mpr h1
        simp [List.filter_cons, hp, hq, hrest]
        omega
      · have hp' : p a = false := Bool.eq_false_iff.mpr hp
        by_cases hq : q a = true
        · simp [List.filter_cons, hp', hq, hrest]
          omega
        · have hq' : q a = false := Bool.eq_false_iff.mpr hq
          simp [List.filter_cons, hp', hq', hrest]

/-- Ids of a store with duplicate-free ids are injective on the store. -/
theorem store_id_injOn {store : List EnrichedCorpusItem}
    (hids : (store.map (fun d => d.id)).Nodup) :
    ∀ {d e : EnrichedCorpusItem}, d ∈ store → e ∈ store → d.id = e.id → d = e := by
  intro d e hd he hide
  exact List.inj_on_of_nodup_map hids hd he hide

theorem filtered_ids_nodup {store : List EnrichedCorpusItem}
    (hids : (store.map (fun d => d.id)).Nodup) (p : EnrichedCorpusItem → Bool) :
    ((store.filter p).map (fun d => d.id)).Nodup :=
  ((store.filter_sublist).map (fun d => d.id)).nodup hids

theorem fixedIds_eq (store : List EnrichedCorpusItem) (opts : RagOptions)
    (hids : (store.map (fun d => d.id)).Nodup) :
    fixedIds store opts =
      (if opts.includeSummary then
        (store.filter (fun d => d.metadata.type == "summary")).map (fun d => d.id)
      else [])
      ++ (if opts.includeEducation then
        (store.filter (fun d => d.metadata.type == "education")).map (fun d => d.id)
      else []) := by
  have hsumnd := filtered_ids_nodup hids (fun d => d.metadata.type == "summary")
  have hedund := filtered_ids_nodup hids (fun d => d.metadata.type == "education")
  have h1 := foldl_setAdd_eq_append
    (store.filter (fun d => d.metadata.type == "summary")) [] (by simp) hsumnd
  have h3 := foldl_setAdd_eq_append
    (store.filter (fun d => d.metadata.type == "education")) [] (by simp) hedund
  have hdisj : ∀ d ∈ store.filter (fun d => d.metadata.type == "education"),
      d.id ∉ (store.filter (fun d => d.metadata.type == "summary")).map
        (fun d => d.id) := by
    intro d hd hmem
    rcases List.mem_map.mp hmem with ⟨e, he', hide⟩
    have hde : e = d := store_id_injOn hids
      (List.mem_of_mem_filter he') (List.mem_of_mem_filter hd) hide
    have ht1 : d.metadata.type = "education" := by
      simpa using (List.mem_filter.mp hd).2
    have ht2 : e.metadata.type = "summary" := by
      simpa using (List.mem_filter.mp he').2
    rw [hde, ht1] at ht2
    exact absurd ht2 (by decide)
  have h2 := foldl_setAdd_eq_append
    (store.filter (fun d => d.metadata.type == "education"))
    ((store.filter (fun d => d.metadata.type == "summary")).map (fun d => d.id))
    hdisj hedund
  by_cases hs : opts.includeSummary = true <;> by_cases he : opts.includeEducation = true
  · simp [fixedIds, hs, he, h1, h2]
  · simp [fixedIds, hs, he, h1]
  · simp [fixedIds, hs, he, h3]
  · simp [fixedIds, hs, he]

theorem fixedIds_length (store : List EnrichedCorpusItem) (opts : RagOptions)
    (hids : (store.map (fun d => d.id)).Nodup) :
    (fixedIds store opts).length = (store.filter (isFixedItem opts)).length := by
  rw [fixedIds_eq store opts hids]
  have hdisj : ∀ a ∈ store,
      ¬((opts.includeSummary && a.metadata.type == "summary") = true
        ∧ (opts.includeEducation && a.metadata.type == "education") = true) := by
    rintro a _ ⟨h1, h2⟩
    have t1 : a.metadata.type = "summary" := by
      have := (Bool.and_eq_true _ _).mp h1
      simpa using this.2
    have t2 : a.metadata.type = "education" := by
      have := (Bool.and_eq_true _ _).mp h2
      simpa using this.2
    rw [t1] at t2
    exact absurd t2 (by decide)
  have hsplit := length_filter_or_disj
    (fun d => opts.includeSummary && d.metadata.type == "summary")
    (fun d => opts.includeEducation && d.metadata.type == "education") store hdisj
  have hfix : store.filter (isFixedItem opts)
      = store.filter (fun d => (opts.includeSummary && d.metadata.type == "summary")
          || (opts.includeEducation && d.metadata.type == "education")) := rfl
  rw [hfix, hsplit]
  by_cases hs : opts.includeSummary <;> by_cases he : opts.includeEducation <;>
    simp [hs, he]

theorem fixedIds_mem (store : List EnrichedCorpusItem) (opts : RagOptions)
    (hids : (store.map (fun d => d.id)).Nodup) (d : EnrichedCorpusItem) (hd : d ∈ store) :
    d.id ∈ fixedIds store opts ↔ isFixedItem opts d = true := by
  rw [fixedIds_eq store opts hids]
  constructor
  · intro h
    rcases List.mem_append.mp h with h1 | h1
    · by_cases hs : opts.includeSummary
      · rw [if_pos hs] at h1
        rcases List.mem_map.mp h1 with ⟨e, he, hide⟩
        have : e = d := store_id_injOn hids (List.mem_of_mem_filter he) hd hide
        subst this
        have := (List.mem_filter.mp he).2
        simp [isFixedItem, hs, this]
      · rw [if_neg hs] at h1
        exact absurd h1 (List.not_mem_nil _)
    · by_cases he : opts.includeEducation
      · rw [if_pos he] at h1
        rcases List.mem_map.mp h1 with ⟨e, he', hide⟩
        have : e = d := store_id_injOn hids (List.mem_of_mem_filter he') hd hide
        subst this
        have := (List.mem_filter.mp he').2
        simp [isFixedItem, he, this]
      · rw [if_neg he] at h1
        exact absurd h1 (List.not_mem_nil _)
  · intro h
    have h0 : (opts.includeSummary && d.metadata.type == "summary") = true
        ∨ (opts.includeEducation && d.metadata.type == "education") = true := by
      simp only [isFixedItem] at h
      exact (Bool.or_eq_true _ _).mp h
    rcases h0 with h1 | h1
    · have hs : opts.includeSummary = true := ((Bool.and_eq_true _ _).mp h1).1
      have ht := ((Bool.and_eq_true _ _).mp h1).2
      apply List.mem_append.mpr
      left
      rw [if_pos hs]
      exact List.mem_map.mpr ⟨d, List.mem_filter.mpr ⟨hd, ht⟩, rfl⟩
    · have he : opts.includeEducation = true := ((Bool.and_eq_true _ _).mp h1).1
      have ht := ((Bool.and_eq_true _ _).mp h1).2
      apply List.mem_append.mpr
      right
      rw [if_pos he]
      exact List.mem_map.mpr ⟨d, List.mem_filter.mpr ⟨hd, ht⟩, rfl⟩

/-! ## Claim C1: context size bound -/

/-- Claim C1: for a store with duplicate-free item ids (the data-model
invariant for ids), the rendered context has at most
`finalContextLimit + (number of fixed-inclusion items)` blocks, and with
`finalContextLimit = 0` it consists of exactly the fixed inclusions, in
store order. -/
theorem getRagContext_block_count (jdText : String) (store : List EnrichedCorpusItem)
    (opts : RagOptions) (reqSvc : Option (List String))
    (embSvc : Option (List (Option (List ℝ))))
    (hids : (store.map (fun d => d.id)).Nodup) :
    (ragContextBlocks jdText store opts reqSvc embSvc).length
      ≤ opts.finalContextLimit + (store.filter (isFixedItem opts)).length
    ∧ (opts.finalContextLimit = 0 →
        ragContextBlocks jdText store opts reqSvc embSvc
          = (store.filter (isFixedItem opts)).map renderBlock) := by
  have hfixlen := fixedIds_length store opts hids
  constructor
  · have hSle : (finalIdsOf jdText store opts reqSvc embSvc).length
        ≤ opts.finalContextLimit + (fixedIds store opts).length := by
      apply selectIds_length_le
      omega
    have e1 : (store.map (fun d => d.id)).filter
          (fun i => decide (i ∈ finalIdsOf jdText store opts reqSvc embSvc))
        = (store.filter
            (fun d => decide (d.id ∈ finalIdsOf jdText store opts reqSvc embSvc))).map
          (fun d => d.id) := by
      rw [List.filter_map]
      rfl
    have hnd : ((store.map (fun d => d.id)).filter
        (fun i => decide (i ∈ finalIdsOf jdText store opts reqSvc embSvc))).Nodup :=
      hids.filter _
    have hsub : ((store.map (fun d => d.id)).filter
        (fun i => decide (i ∈ finalIdsOf jdText store opts reqSvc embSvc)))
        ⊆ finalIdsOf jdText store opts reqSvc embSvc := by
      intro i hi
      exact of_decide_eq_true (List.mem_filter.mp hi).2
    have hcount := nodup_subset_length_le hnd hsub
    calc (ragContextBlocks jdText store opts reqSvc embSvc).length
        = (selectedItems jdText store opts reqSvc embSvc).length := by
          simp [ragContextBlocks]
      _ = ((store.filter
            (fun d => decide (d.id ∈ finalIdsOf jdText store opts reqSvc embSvc))).map
            (fun d => d.id)).length := by
          simp [selectedItems]
      _ = ((store.map (fun d => d.id)).filter
            (fun i => decide (i ∈ finalIdsOf jdText store opts reqSvc embSvc))).length := by
          rw [e1]
      _ ≤ (finalIdsOf jdText store opts reqSvc embSvc).length := hcount
      _ ≤ opts.finalContextLimit + (fixedIds store opts).length := hSle
      _ = opts.finalContextLimit + (store.filter (isFixedItem opts)).length := by
          rw [hfixlen]
  · intro h0
    have hfin : finalIdsOf jdText store opts reqSvc embSvc = fixedIds store opts := by
      simp only [finalIdsOf]
      apply selectIds_of_le
      omega
    have hfiltereq : selectedItems jdText store opts reqSvc embSvc
        = store.filter (isFixedItem opts) := by
      rw [selectedItems, hfin]
      apply List.filter_congr
      intro d hd
      have hiff := fixedIds_mem store opts hids d hd
      by_cases hmem : d.id ∈ fixedIds store opts
      · rw [decide_eq_true hmem, (hiff.mp hmem).symm]
      · have hnot : isFixedItem opts d = false :=
          Bool.eq_false_iff.mpr (fun hc => hmem (hiff.mpr hc))
        rw [decide_eq_false hmem, hnot]
    rw [ragContextBlocks, hfiltereq]

/-- Witness for C1 at a concrete input (one work-experience item, default
options): zero fixed inclusions and at most fifteen blocks. -/
theorem getRagContext_block_count_witness :
    (([demoItemNoEmb].map (fun d => d.id)).Nodup)
    ∧ (ragContextBlocks "jd" [demoItemNoEmb] {} (some ["r"]) (some [some [1]])).length
        ≤ ({} : RagOptions).finalContextLimit
          + ([demoItemNoEmb].filter (isFixedItem {})).length :=
  ⟨by simp, (getRagContext_block_count "jd" [demoItemNoEmb] {} (some ["r"])
      (some [some [1]]) (by simp)).1⟩

/-! ## Claim C2: items without embeddings -/

/-- Claim C2, amended: every id in the final set comes from the fixed
inclusions or from the score ranking, and for a store all of whose items
carry embeddings — the invariant `enrichAndEmbedCorpus` guarantees for the
vector store — no rendered item lacks an embedding.  For an arbitrary item
list the original claim fails: an item without an embedding is scored with
the sentinel `-1` and enters the top-`reqMatchCount` hits whenever fewer
than `reqMatchCount` better-scored items exist (see the counterexample). -/
theorem getRagContext_embedded_only (jdText : String) (store : List EnrichedCorpusItem)
    (opts : RagOptions) (reqSvc : Option (List String))
    (embSvc : Option (List (Option (List ℝ))))
    (hemb : ∀ d ∈ store, d.embedding.isSome) :
    (∀ i ∈ finalIdsOf jdText store opts reqSvc embSvc,
        i ∈ fixedIds store opts
        ∨ i ∈ sortedIdsOf store opts.reqMatchCount (reqEmbeddingsOf embSvc))
    ∧ ∀ d ∈ selectedItems jdText store opts reqSvc embSvc, d.embedding.isSome := by
  constructor
  · intro i hi
    exact mem_selectIds _ _ _ i (by simpa [finalIdsOf] using hi)
  · intro d hd
    exact hemb d (List.mem_of_mem_filter hd)

/-- Witness for the amended C2 at a concrete one-item embedded store. -/
theorem getRagContext_embedded_only_witness :
    (∀ d ∈ [demoItemEmb], d.embedding.isSome)
    ∧ ∀ d ∈ selectedItems "jd" [demoItemEmb] {} (some ["r"]) (some [some [1]]),
        d.embedding.isSome :=
  ⟨by intro d hd; simp at hd; subst hd; simp [demoItemEmb],
    (getRagContext_embedded_only "jd" [demoItemEmb] {} (some ["r"]) (some [some [1]])
      (by intro d hd; simp at hd; subst hd; simp [demoItemEmb])).2⟩

/-- Claim C2 counterexample: a store holding a single item with no
embedding, defaults everywhere, one successfully embedded requirement — the
item is scored `-1`, fills the top-`reqMatchCount` list on its own, enters
the final id set, and its block is rendered into the context. -/
theorem getRagContext_unembedded_selected_counterexample :
    demoItemNoEmb.embedding = none
    ∧ selectedItems "jd" [demoItemNoEmb] {} (some ["r"]) (some [some [1]]) = [demoItemNoEmb]
    ∧ ragContextBlocks "jd" [demoItemNoEmb] {} (some ["r"]) (some [some [1]])
        = [renderBlock demoItemNoEmb] := by
  have hfin : finalIdsOf "jd" [demoItemNoEmb] {} (some ["r"]) (some [some [1]]) = ["a"] := by
    simp [finalIdsOf, fixedIds, reqEmbeddingsOf, sortedIdsOf, chunkScoresOf, topHits,
      scoresFor, sortByScoreDesc, accumHits, itemScore, demoItemNoEmb, demoMeta,
      mapSet, mapGetD, selectIds, setAdd]
  refine ⟨rfl, ?_, ?_⟩
  · simp only [selectedItems]
    rw [hfin]
    simp [demoItemNoEmb]
  · simp only [ragContextBlocks, selectedItems]
    rw [hfin]
    simp [demoItemNoEmb]

/-! ## Score-map lemmas (C4) -/

theorem mapGetD_mapSet :
    ∀ (m : List (String × ℝ)) (k : String) (v : ℝ) (k' : String) (d : ℝ),
      mapGetD (mapSet m k v) k' d = if k' = k then v else mapGetD m k' d := by
  intro m
  induction m with
  | nil =>
      intro k v k' d
      by_cases h : k' = k
      · subst h
        simp [mapSet, mapGetD]
      · simp [mapSet, mapGetD, h, show ¬ k = k' from fun hc => h hc.symm]
  | cons p rest ih =>
      intro k v k' d
      by_cases h1 : p.1 = k
      · subst h1
        by_cases h2 : k' = p.1
        · subst h2
          simp [mapSet, mapGetD]
        · simp [mapSet, mapGetD, h2, show ¬ p.1 = k' from fun hc => h2 hc.symm]
      · by_cases h2 : k' = k
        · subst h2
          simp [mapSet, mapGetD, h1, show ¬ p.1 = k' from h1, ih]
        · by_cases h3 : p.1 = k'
          · simp [mapSet, mapGetD, h1, h3, h2]
          · simp [mapSet, mapGetD, h1, h3, h2, ih]

theorem accumHits_getD :
    ∀ (hits : List (String × ℝ)) (m : List (String × ℝ)) (x : String),
      mapGetD (accumHits m hits) x 0
        = mapGetD m x 0 + ((hits.filter (fun h => h.1 == x)).map Prod.snd).sum := by
  intro hits
  induction hits with
  | nil => intro m x; simp [accumHits]
  | cons h t ih =>
      intro m x
      have hstep : accumHits m (h :: t) = accumHits (mapSet m h.1 (mapGetD m h.1 0 + h.2)) t := rfl
      rw [hstep, ih]
      by_cases hx : h.1 = x
      · rw [mapGetD_mapSet]
        rw [if_pos hx.symm]
        have : (h :: t).filter (fun h => h.1 == x) = h :: t.filter (fun h => h.1 == x) := by
          simp [List.filter_cons, hx]
        rw [this, hx]
        simp [add_assoc]
      · rw [mapGetD_mapSet]
        rw [if_neg (fun hc : x = h.1 => hx hc.symm)]
        have : (h :: t).filter (fun h => h.1 == x) = t.filter (fun h => h.1 == x) := by
          simp [List.filter_cons, hx]
        rw [this]

theorem foldl_accumHits_getD (store : List EnrichedCorpusItem) (K : ℕ) :
    ∀ (reqVecs : List (List ℝ)) (m : List (String × ℝ)) (x : String),
      mapGetD (reqVecs.foldl (fun m r => accumHits m (topHits store K r)) m) x 0
        = mapGetD m x 0
          + (reqVecs.map (fun r =>
              (((topHits store K r).filter (fun h => h.1 == x)).map Prod.snd).sum)).sum := by
  intro reqVecs
  induction reqVecs with
  | nil => intro m x; simp
  | cons r rest ih =>
      intro m x
      simp only [List.foldl_cons, List.map_cons, List.sum_cons]
      rw [ih, accumHits_getD]
      ring

theorem mapSet_keys (k : String) (v : ℝ) :
    ∀ (m : List (String × ℝ)),
      (mapSet m k v).map Prod.fst
        = if k ∈ m.map Prod.fst then m.map Prod.fst else m.map Prod.fst ++ [k] := by
  intro m
  induction m with
  | nil => simp [mapSet]
  | cons p rest ih =>
      by_cases h1 : p.1 = k
      · simp [mapSet, h1]
      · by_cases h3 : k ∈ rest.map Prod.fst
        · simp [mapSet, h1, h3, ih, show ¬ k = p.1 from fun hc => h1 hc.symm]
        · simp [mapSet, h1, h3, ih, show ¬ k = p.1 from fun hc => h1 hc.symm]

theorem mapSet_keys_nodup (m : List (String × ℝ)) (k : String) (v : ℝ)
    (h : (m.map Prod.fst).Nodup) : ((mapSet m k v).map Prod.fst).Nodup := by
  rw [mapSet_keys]
  by_cases hk : k ∈ m.map Prod.fst
  · simpa [hk] using h
  · simp only [hk, if_false]
    exact List.Nodup.append h (List.nodup_singleton k) (by simpa using hk)

theorem accumHits_keys_nodup :
    ∀ (hits : List (String × ℝ)) (m : List (String × ℝ)),
      (m.map Prod.fst).Nodup → ((accumHits m hits).map Prod.fst).Nodup := by
  intro hits
  induction hits with
  | nil => intro m h; simpa [accumHits] using h
  | cons p t ih =>
      intro m h
      exact ih (mapSet m p.1 (mapGetD m p.1 0 + p.2)) (mapSet_keys_nodup m p.1 _ h)

theorem chunkScores_keys_nodup (store : List EnrichedCorpusItem) (K : ℕ) :
    ∀ (reqVecs : List (List ℝ)) (m : List (String × ℝ)),
      (m.map Prod.fst).Nodup →
      ((reqVecs.foldl (fun m r => accumHits m (topHits store K r)) m).map Prod.fst).Nodup := by
  intro reqVecs
  induction reqVecs with
  | nil => intro m h; simpa using h
  | cons r rest ih =>
      intro m h
      exact ih (accumHits m (topHits store K r)) (accumHits_keys_nodup _ m h)

theorem mapGetD_of_mem :
    ∀ (m : List (String × ℝ)), (m.map Prod.fst).Nodup →
      ∀ (k : String) (v : ℝ) (d : ℝ), (k, v) ∈ m → mapGetD m k d = v := by
  intro m
  induction m with
  | nil => intro _ k v d h; exact absurd h (List.not_mem_nil _)
  | cons p rest ih =>
      intro hnd k v d hmem
      rw [List.map_cons] at hnd
      have hhead := (List.nodup_cons.mp hnd).1
      have htail := (List.nodup_cons.mp hnd).2
      rcases List.mem_cons.mp hmem with h1 | h1
      · rw [← h1]
        simp [mapGetD]
      · have hk : p.1 ≠ k := by
          intro hc
          apply hhead
          rw [hc]
          exact List.mem_map.mpr ⟨(k, v), h1, rfl⟩
        simp only [mapGetD, hk, if_false]
        exact ih htail k v d h1

/-! ## Sorting lemmas (C4) -/

theorem sortByScoreDesc_perm (l : List (String × ℝ)) : (sortByScoreDesc l).Perm l :=
  List.mergeSort_perm l _

theorem sortByScoreDesc_sorted (l : List (String × ℝ)) :
    (sortByScoreDesc l).Pairwise (fun p q => q.2 ≤ p.2) := by
  have htrans : ∀ a b c : String × ℝ, decide (b.2 ≤ a.2) = true →
      decide (c.2 ≤ b.2) = true → decide (c.2 ≤ a.2) = true := by
    intro a b c h1 h2
    exact decide_eq_true (le_trans (of_decide_eq_true h2) (of_decide_eq_true h1))
  have htotal : ∀ a b : String × ℝ,
      (decide (b.2 ≤ a.2) || decide (a.2 ≤ b.2)) = true := by
    intro a b
    rcases le_total a.2 b.2 with h | h
    · simp [decide_eq_true h]
    · simp [decide_eq_true h]
  have hs := List.sorted_mergeSort htrans htotal l
  exact hs.imp (fun hab => of_decide_eq_true hab)

theorem topHits_length (store : List EnrichedCorpusItem) (K : ℕ) (r : List ℝ) :
    (topHits store K r).length = min K store.length := by
  simp [topHits, sortByScoreDesc, scoresFor]

theorem scoresFor_split_perm (store : List EnrichedCorpusItem) (K : ℕ) (r : List ℝ) :
    (scoresFor store r).Perm
      (topHits store K r ++ (sortByScoreDesc (scoresFor store r)).drop K) := by
  rw [topHits, List.take_append_drop]
  exact (sortByScoreDesc_perm (scoresFor store r)).symm

theorem topHits_ge_dropped (store : List EnrichedCorpusItem) (K : ℕ) (r : List ℝ) :
    ∀ x ∈ topHits store K r, ∀ y ∈ (sortByScoreDesc (scoresFor store r)).drop K,
      y.2 ≤ x.2 := by
  have h := sortByScoreDesc_sorted (scoresFor store r)
  rw [← List.take_append_drop K (sortByScoreDesc (scoresFor store r))] at h
  exact (List.pairwise_append.mp h).2.2

theorem topHits_subset (store : List EnrichedCorpusItem) (K : ℕ) (r : List ℝ) :
    topHits store K r ⊆ scoresFor store r := by
  intro p hp
  have h1 : p ∈ sortByScoreDesc (scoresFor store r) :=
    (List.take_sublist K _).subset hp
  exact (sortByScoreDesc_perm (scoresFor store r)).subset h1

theorem scoresFor_keys (store : List EnrichedCorpusItem) (r : List ℝ) :
    (scoresFor store r).map Prod.fst = store.map (fun d => d.id) := by
  simp [scoresFor, Function.comp_def]

theorem topHits_keys_nodup (store : List EnrichedCorpusItem) (K : ℕ) (r : List ℝ)
    (hids : (store.map (fun d => d.id)).Nodup) :
    ((topHits store K r).map Prod.fst).Nodup := by
  have h1 : ((sortByScoreDesc (scoresFor store r)).map Prod.fst).Nodup := by
    have hperm := (sortByScoreDesc_perm (scoresFor store r)).map Prod.fst
    have : ((scoresFor store r).map Prod.fst).Nodup := by
      rw [scoresFor_keys]
      exact hids
    exact hperm.symm.nodup this
  have h2 : ((topHits store K r).map Prod.fst).Sublist
      ((sortByScoreDesc (scoresFor store r)).map Prod.fst) :=
    (List.take_sublist K _).map Prod.fst
  exact h2.nodup h1

theorem filter_key_of_mem :
    ∀ (l : List (String × ℝ)), ((l.map Prod.fst).Nodup) →
      ∀ (x : String) (v : ℝ), (x, v) ∈ l →
      l.filter (fun h => h.1 == x) = [(x, v)] := by
  intro l
  induction l with
  | nil => intro _ x v h; exact absurd h (List.not_mem_nil _)
  | cons p rest ih =>
      intro hnd x v hmem
      rw [List.map_cons] at hnd
      have hnd1 := List.nodup_cons.mp hnd
      rcases List.mem_cons.mp hmem with h1 | h1
      · subst h1
        have hnot : x ∉ rest.map Prod.fst := hnd1.1
        have hfil : rest.filter (fun h => h.1 == x) = [] := by
          apply List.filter_eq_nil_iff.mpr
          intro q hq hbe
          exact hnot (List.mem_map.mpr ⟨q, hq, of_decide_eq_true (by simpa using hbe)⟩)
        simp [List.filter_cons, hfil]
      · have hx : p.1 ≠ x := by
          intro hc
          exact hnd1.1 (hc ▸ List.mem_map.mpr ⟨(x, v), h1, rfl⟩)
        have : (p.1 == x) = false := beq_eq_false_iff_ne.mpr hx
        simp only [List.filter_cons, this, if_false]
        exact ih hnd1.2 x v h1

theorem filter_key_of_not_mem :
    ∀ (l : List (String × ℝ)) (x : String), x ∉ l.map Prod.fst →
      l.filter (fun h => h.1 == x) = [] := by
  intro l x hx
  apply List.filter_eq_nil_iff.mpr
  intro q hq hbe
  exact hx (List.mem_map.mpr ⟨q, hq, of_decide_eq_true (by simpa using hbe)⟩)

theorem topHits_filter_sum (store : List EnrichedCorpusItem) (K : ℕ) (r : List ℝ)
    (hids : (store.map (fun d => d.id)).Nodup) (d : EnrichedCorpusItem) (hd : d ∈ store) :
    (((topHits store K r).filter (fun h => h.1 == d.id)).map Prod.snd).sum
      = if d.id ∈ (topHits store K r).map Prod.fst then itemScore r d else 0 := by
  by_cases hmem : d.id ∈ (topHits store K r).map Prod.fst
  · rcases List.mem_map.mp hmem with ⟨p, hp, hfst⟩
    have hps : p ∈ scoresFor store r := topHits_subset store K r hp
    rcases List.mem_map.mp hps with ⟨d', hd', hpd⟩
    subst hpd
    have hid' : d'.id = d.id := hfst
    have hdd : d' = d := store_id_injOn hids hd' hd hid'
    subst hdd
    rw [filter_key_of_mem _ (topHits_keys_nodup store K r hids) d'.id (itemScore r d') hp]
    simp [hmem]
  · rw [filter_key_of_not_mem _ _ hmem]
    simp [hmem]

/-- Claim C4: for each requirement vector the retriever takes the
`reqMatchCount` highest-scored entries (a prefix of a descending sort of a
permutation of the per-item score list, each hit scoring at least every
non-hit); each store item's aggregated score is the sum, over the
requirements in whose top list its id appears, of its cosine similarity to
that requirement; and the aggregated ids are ranked by accumulated total in
descending order. -/
theorem getRagContext_score_aggregation (store : List EnrichedCorpusItem)
    (K : ℕ) (reqVecs : List (List ℝ))
    (hids : (store.map (fun d => d.id)).Nodup) :
    (∀ r ∈ reqVecs,
        (topHits store K r).length = min K store.length
        ∧ (scoresFor store r).Perm
            (topHits store K r ++ (sortByScoreDesc (scoresFor store r)).drop K)
        ∧ (∀ x ∈ topHits store K r, ∀ y ∈ (sortByScoreDesc (scoresFor store r)).drop K,
            y.2 ≤ x.2))
    ∧ (∀ d ∈ store, ∀ e, d.embedding = some e →
        mapGetD (chunkScoresOf store K reqVecs) d.id 0
          = (reqVecs.map (fun r =>
              if d.id ∈ (topHits store K r).map Prod.fst
              then cosineSimilarityVal r e else 0)).sum)
    ∧ (sortedIdsOf store K reqVecs).Pairwise
        (fun i j => mapGetD (chunkScoresOf store K reqVecs) j 0
          ≤ mapGetD (chunkScoresOf store K reqVecs) i 0) := by
  refine ⟨?_, ?_, ?_⟩
  · intro r _
    exact ⟨topHits_length store K r, scoresFor_split_perm store K r,
      topHits_ge_dropped store K r⟩
  · intro d hd e he
    rw [chunkScoresOf, foldl_accumHits_getD store K reqVecs [] d.id]
    have h0 : mapGetD [] d.id 0 = 0 := rfl
    rw [h0, zero_add]
    apply congrArg List.sum
    apply List.map_congr_left
    intro r _
    rw [topHits_filter_sum store K r hids d hd]
    simp [itemScore, he]
  · have hkeysnd : ((chunkScoresOf store K reqVecs).map Prod.fst).Nodup :=
      chunkScores_keys_nodup store K reqVecs [] (by simp)
    have hsorted := sortByScoreDesc_sorted (chunkScoresOf store K reqVecs)
    have hsorted2 : (sortByScoreDesc (chunkScoresOf store K reqVecs)).Pairwise
        (fun p q => mapGetD (chunkScoresOf store K reqVecs) q.1 0
          ≤ mapGetD (chunkScoresOf store K reqVecs) p.1 0) := by
      refine List.Pairwise.imp_of_mem ?_ hsorted
      intro a b ha hb hab
      have ha2 : a ∈ chunkScoresOf store K reqVecs := (sortByScoreDesc_perm _).subset ha
      have hb2 : b ∈ chunkScoresOf store K reqVecs := (sortByScoreDesc_perm _).subset hb
      rw [mapGetD_of_mem _ hkeysnd a.1 a.2 0 (by simpa using ha2),
          mapGetD_of_mem _ hkeysnd b.1 b.2 0 (by simpa using hb2)]
      exact hab
    rw [sortedIdsOf]
    exact List.pairwise_map.mpr hsorted2

/-- Witness for C4 at a concrete input: a one-item embedded store and a
single requirement vector. -/
theorem getRagContext_score_aggregation_witness :
    (([demoItemEmb].map (fun d => d.id)).Nodup)
    ∧ demoItemEmb.embedding = some [1]
    ∧ mapGetD (chunkScoresOf [demoItemEmb] 2 [[(1:ℝ)]]) demoItemEmb.id 0
        = ([[(1:ℝ)]].map (fun r =>
            if demoItemEmb.id ∈ (topHits [demoItemEmb] 2 r).map Prod.fst
            then cosineSimilarityVal r [1] else 0)).sum :=
  ⟨by simp, rfl,
    (getRagContext_score_aggregation [demoItemEmb] 2 [[1]] (by simp)).2.1
      demoItemEmb (by simp) [1] rfl⟩

theorem getD_set_eq (items : List EnrichedCorpusItem) (pos : ℕ) (x : EnrichedCorpusItem)
    (h : pos < items.length) : (items.set pos x).getD pos dummyItem = x := by
  simp [List.getD_eq_getElem?_getD, List.getElem?_set, h]

theorem getD_set_ne (items : List EnrichedCorpusItem) (pos q : ℕ) (x : EnrichedCorpusItem)
    (h : pos ≠ q) : (items.set pos x).getD q dummyItem = items.getD q dummyItem := by
  simp [List.getD_eq_getElem?_getD, List.getElem?_set, h]

theorem applyEmbeds_length :
    ∀ (resp : List (Option (List ℝ))) (items : List EnrichedCorpusItem) (pos : ℕ),
      (applyEmbeds items pos resp).length = items.length := by
  intro resp
  induction resp with
  | nil => intro items pos; rfl
  | cons o rest ih =>
      intro items pos
      rcases o with _ | v
      · exact ih items (pos + 1)
      · by_cases h : pos < items.length
        · simp only [applyEmbeds, dif_pos h]
          rw [ih]
          simp
        · simp only [applyEmbeds, dif_neg h]

theorem applyEmbeds_getD_lt :
    ∀ (resp : List (Option (List ℝ))) (items : List EnrichedCorpusItem) (pos q : ℕ),
      q < pos → (applyEmbeds items pos resp).getD q dummyItem = items.getD q dummyItem := by
  intro resp
  induction resp with
  | nil => intro items pos q _; rfl
  | cons o rest ih =>
      intro items pos q hq
      rcases o with _ | v
      · exact ih items (pos + 1) q (by omega)
      · by_cases h : pos < items.length
        · simp only [applyEmbeds, dif_pos h]
          rw [ih _ (pos + 1) q (by omega)]
          exact getD_set_ne items pos q _ (by omega)
        · simp only [applyEmbeds, dif_neg h]

theorem applyEmbeds_getD_ge :
    ∀ (resp : List (Option (List ℝ))) (items : List EnrichedCorpusItem) (pos q : ℕ),
      pos + resp.length ≤ q →
      (applyEmbeds items pos resp).getD q dummyItem = items.getD q dummyItem := by
  intro resp
  induction resp with
  | nil => intro items pos q _; rfl
  | cons o rest ih =>
      intro items pos q hq
      simp only [List.length_cons] at hq
      rcases o with _ | v
      · exact ih items (pos + 1) q (by omega)
      · by_cases h : pos < items.length
        · simp only [applyEmbeds, dif_pos h]
          rw [ih _ (pos + 1) q (by omega)]
          exact getD_set_ne items pos q _ (by omega)
        · simp only [applyEmbeds, dif_neg h]

theorem applyEmbeds_getD_in :
    ∀ (resp : List (Option (List ℝ))) (items : List EnrichedCorpusItem) (pos q : ℕ),
      pos + resp.length ≤ items.length → pos ≤ q → q < pos + resp.length →
      (applyEmbeds items pos resp).getD q dummyItem
        = withEmb (items.getD q dummyItem)
            (jsOverwrite ((items.getD q dummyItem).embedding) (resp.getD (q - pos) none)) := by
  intro resp
  induction resp with
  | nil =>
      intro items pos q _ h1 h2
      simp only [List.length_nil] at h2
      omega
  | cons o rest ih =>
      intro items pos q hlen hle hlt
      simp only [List.length_cons] at hlen hlt
      rcases o with _ | v
      · by_cases hq : q = pos
        · subst hq
          have hstep : applyEmbeds items q (none :: rest) = applyEmbeds items (q + 1) rest := rfl
          rw [hstep, applyEmbeds_getD_lt rest items (q + 1) q (by omega)]
          have hz : q - q = 0 := by omega
          rw [hz, List.getD_cons_zero]
          rfl
        · have hstep : applyEmbeds items pos (none :: rest) = applyEmbeds items (pos + 1) rest := rfl
          rw [hstep, ih items (pos + 1) q (by omega) (by omega) (by omega)]
          have hidx : q - pos = (q - (pos + 1)) + 1 := by omega
          rw [hidx, List.getD_cons_succ]
      · have hplt : pos < items.length := by omega
        simp only [applyEmbeds, dif_pos hplt]
        by_cases hq : q = pos
        · subst hq
          rw [applyEmbeds_getD_lt rest _ (q + 1) q (by omega)]
          rw [getD_set_eq _ q _ hplt]
          have hz : q - q = 0 := by omega
          rw [hz, List.getD_cons_zero]
          rw [List.getD_eq_getElem items dummyItem hplt]
          rfl
        · rw [ih _ (pos + 1) q (by simpa using by omega : pos + 1 + rest.length ≤ (items.set pos { items[pos] with embedding := some v }).length) (by omega) (by omega)]
          rw [getD_set_ne items pos q _ (fun hc => hq hc.symm)]
          have hidx : q - pos = (q - (pos + 1)) + 1 := by omega
          rw [hidx, List.getD_cons_succ]

theorem embedLoop_getD (items : List EnrichedCorpusItem) (svc : ℕ → EmbedOutcome)
    (halign : ∀ k resp, svc k = .ok resp →
      resp.length ≤ ((items.drop (20 * k)).take 20).length) :
    ∀ n : ℕ,
      ((List.range n).foldl (fun cur k =>
          match svc k with
          | .threw => cur
          | .ok resp => applyEmbeds cur (20 * k) resp) items).length = items.length
      ∧ ∀ q, q < items.length →
          ((List.range n).foldl (fun cur k =>
            match svc k with
            | .threw => cur
            | .ok resp => applyEmbeds cur (20 * k) resp) items).getD q dummyItem
          = if q < 20 * n then
              withEmb (items.getD q dummyItem)
                (jsOverwrite ((items.getD q dummyItem).embedding) (batchVec svc q))
            else items.getD q dummyItem := by
  intro n
  induction n with
  | zero => simp
  | succ n ih =>
      have hstep : (List.range (n + 1)).foldl (fun cur k =>
          match svc k with
          | .threw => cur
          | .ok resp => applyEmbeds cur (20 * k) resp) items
          = (match svc n with
            | .threw => (List.range n).foldl (fun cur k =>
                match svc k with
                | .threw => cur
                | .ok resp => applyEmbeds cur (20 * k) resp) items
            | .ok resp => applyEmbeds ((List.range n).foldl (fun cur k =>
                match svc k with
                | .threw => cur
                | .ok resp => applyEmbeds cur (20 * k) resp) items) (20 * n) resp) := by
        rw [List.range_succ, List.foldl_append]
        rfl
      rcases hsvc : svc n with _ | resp
      · rw [hstep, hsvc]
        refine ⟨ih.1, fun q hq => ?_⟩
        rw [ih.2 q hq]
        by_cases h1 : q < 20 * n
        · rw [if_pos h1, if_pos (by omega)]
        · rw [if_neg h1]
          by_cases h2 : q < 20 * (n + 1)
          · rw [if_pos h2]
            have hbv : batchVec svc q = none := by
              have hdiv : q / 20 = n := by omega
              simp [batchVec, hdiv, hsvc]
            rw [hbv]
            rfl
          · rw [if_neg h2]
      · have hresp := halign n resp hsvc
        have hresplen : resp.length ≤ min 20 (items.length - 20 * n) := by
          simpa [List.length_take, List.length_drop] using hresp
        rw [hstep, hsvc]
        have hflen := ih.1
        refine ⟨by rw [applyEmbeds_length, hflen], fun q hq => ?_⟩
        by_cases h1 : q < 20 * n
        · rw [applyEmbeds_getD_lt resp _ (20 * n) q h1, ih.2 q hq,
            if_pos h1, if_pos (by omega)]
        · by_cases h2 : q < 20 * n + resp.length
          · have hq20 : q / 20 = n := by omega
            have hqmod : q % 20 = q - 20 * n := by omega
            rw [applyEmbeds_getD_in resp _ (20 * n) q (by omega) (by omega) h2]
            rw [ih.2 q hq, if_neg h1, if_pos (by omega)]
            have hbv : batchVec svc q = resp.getD (q - 20 * n) none := by
              simp [batchVec, hq20, hqmod, hsvc]
            rw [hbv]
          · rw [applyEmbeds_getD_ge resp _ (20 * n) q (by omega), ih.2 q hq, if_neg h1]
            by_cases h3 : q < 20 * (n + 1)
            · rw [if_pos h3]
              have hbv : batchVec svc q = none := by
                have hdiv : q / 20 = n := by omega
                have hmod : resp.length ≤ q % 20 := by omega
                have hgd : resp[q % 20]? = none := List.getElem?_eq_none hmod
                simp [batchVec, hdiv, hsvc, List.getD_eq_getElem?_getD, hgd]
              rw [hbv]
              rfl
            · rw [if_neg h3]

theorem enrichSeq_embedding_none (svc : ℕ → GenResult) (ids : ℕ → String) :
    ∀ (l : List CorpusChunk) (j : ℕ), ∀ it ∈ enrichSeq svc ids l j, it.embedding = none := by
  intro l
  induction l with
  | nil => intro j it h; exact absurd h (List.not_mem_nil _)
  | cons c rest ih =>
      intro j it h
      rcases hsvc : svc j with _ | _ | _ | ⟨f, kw, sk, cat⟩ <;>
        rw [enrichSeq, hsvc] at h
      · simp only [enrichItem] at h
        rcases List.mem_cons.mp h with h1 | h1
        · simp [h1, fallbackItem]
        · exact ih (j + 1) it h1
      · simp only [enrichItem] at h
        exact ih (j + 1) it h
      · simp only [enrichItem] at h
        rcases List.mem_cons.mp h with h1 | h1
        · simp [h1, fallbackItem]
        · exact ih (j + 1) it h1
      · simp only [enrichItem] at h
        rcases List.mem_cons.mp h with h1 | h1
        · simp [h1, fallbackItem]
        · exact ih (j + 1) it h1

/-- Claim C5: under the documented embedding-service interface (each
response is aligned by position to its batch's input list, so it is no
longer than the batch), the embedding phase preserves the item list's
length and attaches to each position exactly the vector the service
returned at that position's batch-relative index — positions with no
returned vector keep their prior (unset) embedding — and the returned
vector store is the sub-list of items whose embedding is set, in original
relative order; enrichment-phase items all start with no embedding, and
`enrichAndEmbedCorpus` returns exactly the filtered embed-phase output. -/
theorem enrichAndEmbedCorpus_alignment (items : List EnrichedCorpusItem)
    (svc : ℕ → EmbedOutcome)
    (halign : ∀ k resp, svc k = .ok resp →
      resp.length ≤ ((items.drop (20 * k)).take 20).length) :
    (embedPhase items svc).length = items.length
    ∧ (∀ q, q < items.length →
        (embedPhase items svc).getD q dummyItem
          = withEmb (items.getD q dummyItem)
              (jsOverwrite ((items.getD q dummyItem).embedding) (batchVec svc q)))
    ∧ ((embedPhase items svc).filter (fun d => d.embedding.isSome)).Sublist
        (embedPhase items svc)
    ∧ (∀ d ∈ (embedPhase items svc).filter (fun d => d.embedding.isSome),
        d.embedding.isSome)
    ∧ (∀ corpus gsvc gids, ∀ it ∈ enrichPhase corpus gsvc gids, it.embedding = none)
    ∧ (∀ corpus gsvc gids,
        enrichAndEmbedCorpus corpus gsvc gids svc
          = (embedPhase (enrichPhase corpus gsvc gids) svc).filter
              (fun d => d.embedding.isSome)) := by
  have h := embedLoop_getD items svc halign ((items.length + 19) / 20)
  refine ⟨h.1, fun q hq => ?_, List.filter_sublist _, fun d hd => (List.mem_filter.mp hd).2,
    ?_, fun corpus gsvc gids => rfl⟩
  · have h2 := h.2 q hq
    rw [embedPhase]
    rw [h2, if_pos (by omega)]
  · intro corpus gsvc gids it hit
    rw [enrichPhase_eq_enrichSeq] at hit
    exact enrichSeq_embedding_none gsvc gids corpus 0 it hit

/-- Witness for C5 at a concrete input: one item, one batch returning one
vector at position 0. -/
theorem enrichAndEmbedCorpus_alignment_witness :
    (∀ k resp, (fun k => if k = 0 then EmbedOutcome.ok [some [(1:ℝ)]] else EmbedOutcome.ok []) k
        = .ok resp → resp.length ≤ (([demoItemNoEmb].drop (20 * k)).take 20).length)
    ∧ (embedPhase [demoItemNoEmb]
        (fun k => if k = 0 then EmbedOutcome.ok [some [(1:ℝ)]] else EmbedOutcome.ok [])).length
      = [demoItemNoEmb].length := by
  have halign : ∀ k resp,
      (fun k => if k = 0 then EmbedOutcome.ok [some [(1:ℝ)]] else EmbedOutcome.ok []) k = .ok resp →
      resp.length ≤ (([demoItemNoEmb].drop (20 * k)).take 20).length := by
    intro k resp hk
    match k with
    | 0 =>
        simp only [if_pos rfl] at hk
        have : [some [(1:ℝ)]] = resp := by
          injection hk
        rw [← this]
        simp
    | (m + 1) =>
        simp only [Nat.succ_ne_zero, if_neg, reduceIte] at hk
        have : ([] : List (Option (List ℝ))) = resp := by
          injection hk
        rw [← this]
        simp
  exact ⟨halign, (enrichAndEmbedCorpus_alignment [demoItemNoEmb] _ halign).1⟩
